import Mathlib

/-!
Shallow embedding of `src/bench-transpose.cpp` (kuk0/bench-transpose).

The matrix is a flat buffer `Nat → α`, addressed as `buffer (i * stride + j)`.
Each benchmarked algorithm body is a pure sequence of swaps; we embed it as an
explicit list of index pairs (in program order) folded over the buffer.
-/

namespace BenchTranspose

variable {α : Type u}

/-- The macro `PAD` (47) from the source. -/
def PAD : Nat := 47

/-- Function `pad` generalized over the `PAD` macro value:
`N + (PAD ? (64+PAD-N%64)%64 : 0)`.  On nonnegative C ints the arithmetic
coincides with this `Nat` arithmetic because `64 + P - N % 64 ≥ 0`. -/
def padP (P N : Nat) : Nat := N + (if P ≠ 0 then (64 + P - N % 64) % 64 else 0)

/-- Function `pad` from the source, with the source's `PAD = 47`. -/
def pad (N : Nat) : Nat := padP PAD N

/-- Flat index of logical cell `(i, j)` under row stride `s`: `m[i*s+j]`. -/
def enc (s i j : Nat) : Nat := i * s + j

/-- Exchange of two cells, `swap(m[a], m[b])`, on a functional buffer. -/
def swapBuf (a b : Nat) (m : Nat → α) : Nat → α :=
  fun k => if k = a then m b else if k = b then m a else m k

/-- Run a list of swaps left-to-right (program order). -/
def applySwaps (L : List (Nat × Nat)) (m : Nat → α) : Nat → α :=
  L.foldl (fun acc p => swapBuf p.1 p.2 acc) m

/-- Does a swap pair move the cell `k`?  (A self-swap moves nothing.) -/
def touches (k : Nat) (p : Nat × Nat) : Bool :=
  decide (p.1 ≠ p.2) && (decide (p.1 = k) || decide (p.2 = k))

/-- Number of swaps in `L` that move cell `k`. -/
def cnt (L : List (Nat × Nat)) (k : Nat) : Nat := L.countP (touches k)

/-- The iteration values of `for (v = start; v < bound; v += B)`. -/
def stepStarts (start B bound : Nat) : List Nat :=
  (List.range ((bound - start + B - 1) / B)).map (fun t => start + B * t)

/-- Swap pairs of `BM_Transpose_Row`'s loop nest with stride `s`:
`for i in [0,N), for j in [i+1,N): swap(m[i*s+j], m[j*s+i])`. -/
def pairs_row (s N : Nat) : List (Nat × Nat) :=
  (List.range N).flatMap (fun i =>
    (List.range' (i+1) (N - (i+1))).map (fun j => (enc s i j, enc s j i)))

/-- The diagonal-block loops of `BM_Transpose_Block` (also reused verbatim by
`BM_Transpose_Block2`): `for (i=k; i<k+B && i<N) for (j=k+1; j<k+B && j<N)`.
Note the source starts `j` at `k+1`, not at `i+1`. -/
def pairs_diag (s N k B : Nat) : List (Nat × Nat) :=
  (List.range' k (min (k+B) N - k)).flatMap (fun i =>
    (List.range' (k+1) (min (k+B) N - (k+1))).map (fun j => (enc s i j, enc s j i)))

/-- The off-diagonal block loops:
`for (i=k; i<k+B && i<N) for (j=l; j<l+B && j<N)`. -/
def pairs_off (s N k l B : Nat) : List (Nat × Nat) :=
  (List.range' k (min (k+B) N - k)).flatMap (fun i =>
    (List.range' l (min (l+B) N - l)).map (fun j => (enc s i j, enc s j i)))

/-- Swap pairs of `BM_Transpose_Block`'s loop nest:
`for (k=0; k<N; k+=B) { diagonal; for (l=k+B; l<N; l+=B) off-diagonal }`. -/
def pairs_block (s N B : Nat) : List (Nat × Nat) :=
  (stepStarts 0 B N).flatMap (fun k =>
    pairs_diag s N k B ++
      (stepStarts (k+B) B N).flatMap (fun l => pairs_off s N k l B))

/-- Swap pairs of `BM_Transpose_Block2`'s loop nest. -/
def pairs_block2 (s N B B2 : Nat) : List (Nat × Nat) :=
  (stepStarts 0 B2 N).flatMap (fun x =>
    ((stepStarts x B (min (x+B2) N)).flatMap (fun k =>
      pairs_diag s N k B ++
        (stepStarts (k+B) B (min (x+B2) N)).flatMap (fun l => pairs_off s N k l B))) ++
    (stepStarts (x+B2) B2 N).flatMap (fun y =>
      (stepStarts x B (min (x+B2) N)).flatMap (fun k =>
        (stepStarts y B (min (y+B2) N)).flatMap (fun l => pairs_off s N k l B))))

/-- Swap pairs of `transpose_rec(N, n, m, i0, j0, i1, j1)`.

The `fuel` argument only makes the recursion structural; `fuel = n` suffices
because every recursive call strictly shrinks `n` (see `pairs_rec_fuel`).
Base self case: `for (i=i0; i<i0+n && i<N) for (j=i+1; j<i0+n && j<N)`.
Base cross case: `for (i=i0, jj=j1; i<i0+n && i<N && jj<N)` and
`for (j=j0, ii=i1; j<j0+n && j<N && ii<N)`, swapping `m[i*N+j], m[ii*N+jj]`
with `ii = i1 + (j - j0)` and `jj = j1 + (i - i0)`. -/
def pairs_rec (N : Nat) : Nat → Nat → Nat → Nat → Nat → Nat → List (Nat × Nat)
  | 0, _, _, _, _, _ => []
  | fuel+1, n, i0, j0, i1, j1 =>
    if n ≤ 4 then
      if i0 = j0 then
        (List.range' i0 (min (i0+n) N - i0)).flatMap (fun i =>
          (List.range' (i+1) (min (i0+n) N - (i+1))).map (fun j => (enc N i j, enc N j i)))
      else
        (List.range' i0 (min (min (i0+n) N) (i0 + (N - j1)) - i0)).flatMap (fun i =>
          (List.range' j0 (min (min (j0+n) N) (j0 + (N - i1)) - j0)).map (fun j =>
            (enc N i j, enc N (i1 + (j - j0)) (j1 + (i - i0)))))
    else
      pairs_rec N fuel (n/2) i0 j0 i1 j1 ++
      pairs_rec N fuel (n - n/2) (i0 + n/2) (j0 + n/2) (i1 + n/2) (j1 + n/2) ++
      pairs_rec N fuel (n - n/2) (i0 + n/2) j0 i1 (j1 + n/2)

/-- Body of `BM_Transpose_Row`, stride `s` (the benchmark uses `s = pad N`). -/
def transposeRow (s N : Nat) (m : Nat → α) : Nat → α :=
  applySwaps (pairs_row s N) m

/-- Body of `BM_Transpose_Block`, stride `s` (the benchmark uses `s = pad N`, `B = 64`). -/
def transposeBlock (s N B : Nat) (m : Nat → α) : Nat → α :=
  applySwaps (pairs_block s N B) m

/-- Body of `BM_Transpose_Block2`, stride `s` (the benchmark uses `s = pad N`,
`B = 4`, `B2 = 1040`). -/
def transposeBlock2 (s N B B2 : Nat) (m : Nat → α) : Nat → α :=
  applySwaps (pairs_block2 s N B B2) m

/-- Source function `transpose_rec(N, n, m, i0, j0, i1, j1)` as a buffer transformer; the
benchmark's call is `transpose_rec(N, N, m, 0, 0, 0, 0)`. -/
def transpose_rec (N n i0 j0 i1 j1 : Nat) (m : Nat → α) : Nat → α :=
  applySwaps (pairs_rec N n n i0 j0 i1 j1) m

/-- The identity-valued buffer used as a concrete distinct-valued input. -/
def idBuf : Nat → Nat := fun k => k

/-- Concrete row-major input `[1,2,3,4,5,6,7,8,9]` for `N = 3`, `stride = 3`. -/
def ex9 : Nat → Nat := fun k => [1, 2, 3, 4, 5, 6, 7, 8, 9].getD k 0

/-- Expected transpose `[1,4,7,2,5,8,3,6,9]` of `ex9`. -/
def ex9T : Nat → Nat := fun k => [1, 4, 7, 2, 5, 8, 3, 6, 9].getD k 0

/-- A swap pair is a mirror pair: it swaps cell `(i, j)` with cell `(j, i)`
for logical coordinates `i, j < N`.  Every swap performed by every algorithm
in the source is of this form. -/
def IsMirror (s N : Nat) (p : Nat × Nat) : Prop :=
  ∃ i j, i < N ∧ j < N ∧ p.1 = enc s i j ∧ p.2 = enc s j i

theorem enc_div {s j : Nat} (i : Nat) (hj : j < s) : enc s i j / s = i := by
  have hs : 0 < s := Nat.lt_of_le_of_lt (Nat.zero_le j) hj
  unfold enc
  rw [Nat.mul_comm i s, Nat.mul_add_div hs, Nat.div_eq_of_lt hj, Nat.add_zero]

theorem enc_mod {s j : Nat} (i : Nat) (hj : j < s) : enc s i j % s = j := by
  unfold enc
  rw [Nat.mul_comm i s, Nat.mul_add_mod, Nat.mod_eq_of_lt hj]

theorem enc_inj {s i j i' j' : Nat} (hj : j < s) (hj' : j' < s)
    (h : enc s i j = enc s i' j') : i = i' ∧ j = j' := by
  constructor
  · have := congrArg (· / s) h
    simpa [enc_div i hj, enc_div i' hj'] using this
  · have := congrArg (· % s) h
    simpa [enc_mod i hj, enc_mod i' hj'] using this

theorem swapBuf_self (a : Nat) (m : Nat → α) : swapBuf a a m = m := by
  funext k
  unfold swapBuf
  split <;> simp_all

theorem swapBuf_fst (a b : Nat) (m : Nat → α) : swapBuf a b m a = m b := by
  unfold swapBuf
  simp

theorem swapBuf_snd (a b : Nat) (m : Nat → α) : swapBuf a b m b = m a := by
  unfold swapBuf
  split
  · next h => rw [h]
  · simp

theorem swapBuf_other {a b k : Nat} (h1 : k ≠ a) (h2 : k ≠ b) (m : Nat → α) :
    swapBuf a b m k = m k := by
  unfold swapBuf
  simp [h1, h2]

theorem applySwaps_nil (m : Nat → α) : applySwaps [] m = m := rfl

theorem applySwaps_cons (p : Nat × Nat) (L : List (Nat × Nat)) (m : Nat → α) :
    applySwaps (p :: L) m = applySwaps L (swapBuf p.1 p.2 m) := rfl

theorem cnt_nil (k : Nat) : cnt [] k = 0 := rfl

theorem cnt_cons (p : Nat × Nat) (L : List (Nat × Nat)) (k : Nat) :
    cnt (p :: L) k = cnt L k + if touches k p then 1 else 0 :=
  List.countP_cons _ _ _

theorem cnt_cons_pos {p : Nat × Nat} {k : Nat} (h : touches k p = true)
    (L : List (Nat × Nat)) : cnt (p :: L) k = cnt L k + 1 :=
  List.countP_cons_of_pos _ _ h

theorem cnt_cons_neg {p : Nat × Nat} {k : Nat} (h : touches k p = false)
    (L : List (Nat × Nat)) : cnt (p :: L) k = cnt L k :=
  List.countP_cons_of_neg _ _ (by simp [h])

/-- Cells not moved by any pair in the list keep their value. -/
theorem applySwaps_untouched {L : List (Nat × Nat)} {k : Nat}
    (h : ∀ p ∈ L, p.1 ≠ k ∧ p.2 ≠ k) (m : Nat → α) :
    applySwaps L m k = m k := by
  induction L generalizing m with
  | nil => rfl
  | cons p L ih =>
    obtain ⟨h1, h2⟩ := h p (List.mem_cons_self _ _)
    rw [applySwaps_cons, ih (fun q hq => h q (List.mem_cons_of_mem _ hq))]
    unfold swapBuf
    simp [Ne.symm h1, Ne.symm h2]

/-- Master characterization: running a list of mirror swaps leaves logical
cell `(i, j)` holding the original `(j, i)` value iff the cell was moved an
odd number of times, and its own value otherwise. -/
theorem applySwaps_parity {s N : Nat} (hs : N ≤ s) {L : List (Nat × Nat)}
    (hL : ∀ p ∈ L, IsMirror s N p) (m : Nat → α) {i j : Nat}
    (hi : i < N) (hj : j < N) :
    applySwaps L m (enc s i j) =
      if cnt L (enc s i j) % 2 = 1 then m (enc s j i) else m (enc s i j) := by
  have hjs : j < s := Nat.lt_of_lt_of_le hj hs
  have his : i < s := Nat.lt_of_lt_of_le hi hs
  induction L generalizing m with
  | nil => simp [applySwaps_nil, cnt_nil]
  | cons p L ih =>
    obtain ⟨x, y, hx, hy, hp1, hp2⟩ := hL p (List.mem_cons_self _ _)
    have hL' : ∀ q ∈ L, IsMirror s N q := fun q hq => hL q (List.mem_cons_of_mem _ hq)
    have hys : y < s := Nat.lt_of_lt_of_le hy hs
    have hxs : x < s := Nat.lt_of_lt_of_le hx hs
    rw [applySwaps_cons, ih hL']
    by_cases hab : p.1 = p.2
    · have hfalse : touches (enc s i j) p = false := by
        unfold touches
        rw [decide_eq_false (fun h => h hab), Bool.false_and]
      have hswap : swapBuf p.1 p.2 m = m := by
        rw [← hab, swapBuf_self]
      rw [hswap, cnt_cons_neg hfalse]
    · by_cases hka : enc s i j = p.1
      · obtain ⟨hix, hjy⟩ := enc_inj hjs hys (hka.trans hp1)
        have hbji : p.2 = enc s j i := by rw [hp2, hix, hjy]
        have htrue : touches (enc s i j) p = true := by
          unfold touches
          rw [Bool.and_eq_true, Bool.or_eq_true]
          exact ⟨decide_eq_true hab, Or.inl (decide_eq_true hka.symm)⟩
        have e1 : swapBuf p.1 p.2 m (enc s j i) = m (enc s i j) := by
          rw [← hbji, swapBuf_snd, ← hka]
        have e2 : swapBuf p.1 p.2 m (enc s i j) = m (enc s j i) := by
          rw [hka, swapBuf_fst, hbji]
        rw [cnt_cons_pos htrue, e1, e2]
        rcases Nat.mod_two_eq_zero_or_one (cnt L (enc s i j)) with h | h
        · rw [if_neg (by omega), if_pos (by omega)]
        · rw [if_pos h, if_neg (by omega)]
      · by_cases hkb : enc s i j = p.2
        · obtain ⟨hiy, hjx⟩ := enc_inj hjs hxs (hkb.trans hp2)
          have haji : p.1 = enc s j i := by rw [hp1, hiy, hjx]
          have htrue : touches (enc s i j) p = true := by
            unfold touches
            rw [Bool.and_eq_true, Bool.or_eq_true]
            exact ⟨decide_eq_true hab, Or.inr (decide_eq_true hkb.symm)⟩
          have e1 : swapBuf p.1 p.2 m (enc s j i) = m (enc s i j) := by
            rw [← haji, swapBuf_fst, ← hkb]
          have e2 : swapBuf p.1 p.2 m (enc s i j) = m (enc s j i) := by
            rw [hkb, swapBuf_snd, haji]
          rw [cnt_cons_pos htrue, e1, e2]
          rcases Nat.mod_two_eq_zero_or_one (cnt L (enc s i j)) with h | h
          · rw [if_neg (by omega), if_pos (by omega)]
          · rw [if_pos h, if_neg (by omega)]
        · have hfalse : touches (enc s i j) p = false := by
            unfold touches
            rw [decide_eq_false (fun h : p.1 = enc s i j => hka h.symm),
              decide_eq_false (fun h : p.2 = enc s i j => hkb h.symm),
              Bool.or_self, Bool.and_false]
          have hja : enc s j i ≠ p.1 := by
            intro h
            obtain ⟨e1, e2⟩ := enc_inj his hys (h.trans hp1)
            exact hkb (by rw [hp2, ← e1, ← e2])
          have hjb : enc s j i ≠ p.2 := by
            intro h
            obtain ⟨e1, e2⟩ := enc_inj his hxs (h.trans hp2)
            exact hka (by rw [hp1, ← e1, ← e2])
          rw [cnt_cons_neg hfalse, swapBuf_other hja hjb, swapBuf_other hka hkb]

/-- The move count of a cell equals that of its mirror cell. -/
theorem cnt_mirror {s N : Nat} (hs : N ≤ s) {L : List (Nat × Nat)}
    (hL : ∀ p ∈ L, IsMirror s N p) {i j : Nat} (hi : i < N) (hj : j < N) :
    cnt L (enc s j i) = cnt L (enc s i j) := by
  have hjs : j < s := Nat.lt_of_lt_of_le hj hs
  have his : i < s := Nat.lt_of_lt_of_le hi hs
  induction L with
  | nil => rfl
  | cons p L ih =>
    obtain ⟨x, y, hx, hy, hp1, hp2⟩ := hL p (List.mem_cons_self _ _)
    have hL' : ∀ q ∈ L, IsMirror s N q := fun q hq => hL q (List.mem_cons_of_mem _ hq)
    have hys : y < s := Nat.lt_of_lt_of_le hy hs
    have hxs : x < s := Nat.lt_of_lt_of_le hx hs
    rw [cnt_cons, cnt_cons, ih hL']
    congr 1
    have hiff1 : p.1 = enc s i j ↔ p.2 = enc s j i := by
      constructor
      · intro h
        obtain ⟨e1, e2⟩ := enc_inj hys hjs ((hp1.symm.trans h))
        rw [hp2, e1, e2]
      · intro h
        obtain ⟨e1, e2⟩ := enc_inj hxs his ((hp2.symm.trans h))
        rw [hp1, e1, e2]
    have hiff2 : p.2 = enc s i j ↔ p.1 = enc s j i := by
      constructor
      · intro h
        obtain ⟨e1, e2⟩ := enc_inj hxs hjs ((hp2.symm.trans h))
        rw [hp1, e1, e2]
      · intro h
        obtain ⟨e1, e2⟩ := enc_inj hys his ((hp1.symm.trans h))
        rw [hp2, e1, e2]
    unfold touches
    rw [decide_eq_decide.mpr hiff2.symm, decide_eq_decide.mpr hiff1.symm, Bool.or_comm]

/-- Any cell outside the logical region is never an endpoint of a mirror swap. -/
theorem mirror_not_touching {s N : Nat} (hs : N ≤ s) {L : List (Nat × Nat)}
    (hL : ∀ p ∈ L, IsMirror s N p) {k : Nat} (hk : ¬(k / s < N ∧ k % s < N)) :
    ∀ p ∈ L, p.1 ≠ k ∧ p.2 ≠ k := by
  intro p hp
  obtain ⟨x, y, hx, hy, hp1, hp2⟩ := hL p hp
  constructor
  · intro e
    apply hk
    rw [← e, hp1, enc_div x (Nat.lt_of_lt_of_le hy hs), enc_mod x (Nat.lt_of_lt_of_le hy hs)]
    exact ⟨hx, hy⟩
  · intro e
    apply hk
    rw [← e, hp2, enc_div y (Nat.lt_of_lt_of_le hx hs), enc_mod y (Nat.lt_of_lt_of_le hx hs)]
    exact ⟨hy, hx⟩

/-- Running any list of mirror swaps twice is the identity on every cell. -/
theorem applySwaps_involution {s N : Nat} (hs : N ≤ s) {L : List (Nat × Nat)}
    (hL : ∀ p ∈ L, IsMirror s N p) (m : Nat → α) (k : Nat) :
    applySwaps L (applySwaps L m) k = m k := by
  by_cases hk : k / s < N ∧ k % s < N
  · obtain ⟨h1, h2⟩ := hk
    have hk' : k = enc s (k / s) (k % s) := by
      unfold enc
      rw [Nat.mul_comm, Nat.div_add_mod]
    rw [hk', applySwaps_parity hs hL (applySwaps L m) h1 h2,
      applySwaps_parity hs hL m h2 h1, cnt_mirror hs hL h1 h2,
      applySwaps_parity hs hL m h1 h2]
    rcases Nat.mod_two_eq_zero_or_one (cnt L (enc s (k / s) (k % s))) with h | h <;> simp [h]
  · rw [applySwaps_untouched (mirror_not_touching hs hL hk),
      applySwaps_untouched (mirror_not_touching hs hL hk)]

/-- Diagonal cells are never moved by mirror swaps. -/
theorem applySwaps_diag {s N : Nat} (hs : N ≤ s) {L : List (Nat × Nat)}
    (hL : ∀ p ∈ L, IsMirror s N p) (m : Nat → α) {i : Nat} (hi : i < N) :
    applySwaps L m (enc s i i) = m (enc s i i) := by
  have his : i < s := Nat.lt_of_lt_of_le hi hs
  have hz : cnt L (enc s i i) = 0 := by
    unfold cnt
    rw [List.countP_eq_zero]
    intro p hp
    obtain ⟨x, y, hx, hy, hp1, hp2⟩ := hL p hp
    unfold touches
    by_cases hab : p.1 = p.2
    · simp [hab]
    · have hne1 : p.1 ≠ enc s i i := by
        intro h
        obtain ⟨e1, e2⟩ := enc_inj (Nat.lt_of_lt_of_le hy hs) his (hp1.symm.trans h)
        exact hab (by rw [hp1, hp2, e1, e2])
      have hne2 : p.2 ≠ enc s i i := by
        intro h
        obtain ⟨e1, e2⟩ := enc_inj (Nat.lt_of_lt_of_le hx hs) his (hp2.symm.trans h)
        exact hab (by rw [hp1, hp2, e1, e2])
      simp [hne1, hne2]
  rw [applySwaps_parity hs hL m hi hi, hz]
  simp

theorem pairs_row_mirror (s N : Nat) : ∀ p ∈ pairs_row s N, IsMirror s N p := by
  intro p hp
  unfold pairs_row at hp
  simp only [List.mem_flatMap, List.mem_map, List.mem_range, List.mem_range'_1] at hp
  obtain ⟨i, hi, j, ⟨hj1, hj2⟩, rfl⟩ := hp
  exact ⟨i, j, hi, by omega, rfl, rfl⟩

theorem pairs_diag_mirror (s N k B : Nat) : ∀ p ∈ pairs_diag s N k B, IsMirror s N p := by
  intro p hp
  unfold pairs_diag at hp
  simp only [List.mem_flatMap, List.mem_map, List.mem_range'_1] at hp
  obtain ⟨i, ⟨hi1, hi2⟩, j, ⟨hj1, hj2⟩, rfl⟩ := hp
  exact ⟨i, j, by omega, by omega, rfl, rfl⟩

theorem pairs_off_mirror (s N k l B : Nat) : ∀ p ∈ pairs_off s N k l B, IsMirror s N p := by
  intro p hp
  unfold pairs_off at hp
  simp only [List.mem_flatMap, List.mem_map, List.mem_range'_1] at hp
  obtain ⟨i, ⟨hi1, hi2⟩, j, ⟨hj1, hj2⟩, rfl⟩ := hp
  exact ⟨i, j, by omega, by omega, rfl, rfl⟩

theorem pairs_block_mirror (s N B : Nat) : ∀ p ∈ pairs_block s N B, IsMirror s N p := by
  intro p hp
  unfold pairs_block at hp
  simp only [List.mem_flatMap, List.mem_append] at hp
  obtain ⟨k, _, hp | hp⟩ := hp
  · exact pairs_diag_mirror s N k B p hp
  · obtain ⟨l, _, hp⟩ := hp
    exact pairs_off_mirror s N k l B p hp

theorem pairs_block2_mirror (s N B B2 : Nat) : ∀ p ∈ pairs_block2 s N B B2, IsMirror s N p := by
  intro p hp
  unfold pairs_block2 at hp
  simp only [List.mem_flatMap, List.mem_append] at hp
  obtain ⟨x, _, hp | hp⟩ := hp
  · obtain ⟨k, _, hp | hp⟩ := hp
    · exact pairs_diag_mirror s N k B p hp
    · obtain ⟨l, _, hp⟩ := hp
      exact pairs_off_mirror s N k l B p hp
  · obtain ⟨y, _, k, _, l, _, hp⟩ := hp
    exact pairs_off_mirror s N k l B p hp

theorem pairs_rec_mirror (N : Nat) :
    ∀ fuel n i0 j0 i1 j1, i1 = j0 → j1 = i0 →
      ∀ p ∈ pairs_rec N fuel n i0 j0 i1 j1, IsMirror N N p := by
  intro fuel
  induction fuel with
  | zero => intro n i0 j0 i1 j1 _ _ p hp; cases hp
  | succ fuel ih =>
    intro n i0 j0 i1 j1 h1 h2 p hp
    unfold pairs_rec at hp
    by_cases hn : n ≤ 4
    · rw [if_pos hn] at hp
      by_cases hd : i0 = j0
      · rw [if_pos hd] at hp
        simp only [List.mem_flatMap, List.mem_map, List.mem_range'_1] at hp
        obtain ⟨i, ⟨hi1, hi2⟩, j, ⟨hj1, hj2⟩, rfl⟩ := hp
        exact ⟨i, j, by omega, by omega, rfl, rfl⟩
      · rw [if_neg hd] at hp
        simp only [List.mem_flatMap, List.mem_map, List.mem_range'_1] at hp
        obtain ⟨i, ⟨hi1, hi2⟩, j, ⟨hj1, hj2⟩, rfl⟩ := hp
        refine ⟨i, j, by omega, by omega, rfl, ?_⟩
        have e1 : i1 + (j - j0) = j := by omega
        have e2 : j1 + (i - i0) = i := by omega
        rw [e1, e2]
    · rw [if_neg hn] at hp
      simp only [List.mem_append] at hp
      rcases hp with (hp | hp) | hp
      · exact ih _ _ _ _ _ h1 h2 p hp
      · exact ih _ _ _ _ _ (by omega) (by omega) p hp
      · exact ih _ _ _ _ _ (by omega) (by omega) p hp

theorem countP_flatMap {β γ : Type} (p : β → Bool) (f : γ → List β) (l : List γ) :
    (l.flatMap f).countP p = (l.map (fun x => (f x).countP p)).sum := by
  induction l with
  | nil => rfl
  | cons a l ih => simp [List.flatMap_cons, List.countP_append, ih]

theorem sum_map_single {l : List Nat} {g : Nat → Nat} {a : Nat} (ha : a ∈ l)
    (hnd : l.Nodup) (h0 : ∀ x ∈ l, x ≠ a → g x = 0) : (l.map g).sum = g a := by
  induction l with
  | nil => cases ha
  | cons b t ih =>
    obtain ⟨hbt, hndt⟩ := List.nodup_cons.mp hnd
    rcases List.mem_cons.mp ha with rfl | hat
    · rw [List.map_cons, List.sum_cons]
      have ht : (t.map g).sum = 0 := List.sum_eq_zero (by
        intro y hy
        obtain ⟨x, hx, rfl⟩ := List.mem_map.mp hy
        exact h0 x (List.mem_cons_of_mem _ hx) (fun e => hbt (e ▸ hx)))
      rw [ht, Nat.add_zero]
    · have hba : b ≠ a := fun e => hbt (e ▸ hat)
      rw [List.map_cons, List.sum_cons, h0 b (List.mem_cons_self _ _) hba,
        ih hat hndt (fun x hx hxa => h0 x (List.mem_cons_of_mem _ hx) hxa), Nat.zero_add]

/-- In `BM_Transpose_Row`'s loop nest each off-diagonal cell with `i < j` is
moved by exactly one iteration (the `(i, j)` one). -/
theorem cnt_pairs_row_lt {s N a b : Nat} (hs : N ≤ s) (hb : b < N) (hab : a < b) :
    cnt (pairs_row s N) (enc s a b) = 1 := by
  have ha : a < N := Nat.lt_trans hab hb
  have has : a < s := Nat.lt_of_lt_of_le ha hs
  have hbs : b < s := Nat.lt_of_lt_of_le hb hs
  unfold cnt pairs_row
  rw [countP_flatMap]
  have h0 : ∀ x ∈ List.range N, x ≠ a →
      ((List.range' (x+1) (N - (x+1))).map
        (fun j => (enc s x j, enc s j x))).countP (touches (enc s a b)) = 0 := by
    intro x hx hxa
    rw [List.mem_range] at hx
    rw [List.countP_map, List.countP_eq_zero]
    intro j hj
    rw [List.mem_range'_1] at hj
    have hjN : j < N := by omega
    have hjs : j < s := Nat.lt_of_lt_of_le hjN hs
    have hxs : x < s := Nat.lt_of_lt_of_le hx hs
    simp only [Function.comp, touches, Bool.and_eq_true, Bool.or_eq_true, decide_eq_true_eq]
    rintro ⟨-, h | h⟩
    · exact hxa (enc_inj hjs hbs h).1
    · obtain ⟨e1, e2⟩ := enc_inj hxs hbs h
      omega
  rw [sum_map_single (List.mem_range.mpr ha) (List.nodup_range N) h0, List.countP_map]
  have hcongr : ∀ j ∈ List.range' (a+1) (N - (a+1)),
      ((touches (enc s a b) ∘ fun j => (enc s a j, enc s j a)) j = true) ↔ ((j == b) = true) := by
    intro j hj
    rw [List.mem_range'_1] at hj
    have hjN : j < N := by omega
    have hjs : j < s := Nat.lt_of_lt_of_le hjN hs
    simp only [Function.comp, touches, Bool.and_eq_true, Bool.or_eq_true,
      decide_eq_true_eq, beq_iff_eq]
    constructor
    · rintro ⟨-, h | h⟩
      · exact (enc_inj hjs hbs h).2
      · obtain ⟨e1, e2⟩ := enc_inj has hbs h
        omega
    · rintro rfl
      refine ⟨fun e => ?_, Or.inl rfl⟩
      obtain ⟨e1, e2⟩ := enc_inj hbs has e
      omega
  rw [List.countP_congr hcongr, ← List.count_eq_countP,
    List.count_eq_one_of_mem (List.nodup_range' _ _) (by rw [List.mem_range'_1]; omega)]

/-- Every off-diagonal logical cell is moved exactly once by `BM_Transpose_Row`. -/
theorem cnt_pairs_row_ne {s N i j : Nat} (hs : N ≤ s) (hi : i < N) (hj : j < N)
    (hij : i ≠ j) : cnt (pairs_row s N) (enc s i j) = 1 := by
  rcases Nat.lt_or_ge i j with h | h
  · exact cnt_pairs_row_lt hs hj h
  · have h' : j < i := Nat.lt_of_le_of_ne h (Ne.symm hij)
    rw [cnt_mirror hs (pairs_row_mirror s N) hj hi]
    exact cnt_pairs_row_lt hs hi h'

theorem mirror_lt {s N : Nat} (hs : N ≤ s) {p : Nat × Nat} (h : IsMirror s N p) :
    p.1 < s * N ∧ p.2 < s * N := by
  obtain ⟨i, j, hi, hj, h1, h2⟩ := h
  have hjs : j < s := Nat.lt_of_lt_of_le hj hs
  have his : i < s := Nat.lt_of_lt_of_le hi hs
  constructor
  · rw [h1]
    unfold enc
    calc i * s + j < i * s + s := by omega
      _ = (i + 1) * s := by ring
      _ ≤ N * s := Nat.mul_le_mul_right s hi
      _ = s * N := Nat.mul_comm N s
  · rw [h2]
    unfold enc
    calc j * s + i < j * s + s := by omega
      _ = (j + 1) * s := by ring
      _ ≤ N * s := Nat.mul_le_mul_right s hj
      _ = s * N := Nat.mul_comm N s

/-- C6: for the source's pad residue 47, `pad N` is the smallest `stride ≥ N`
with `stride % 64 = 47`; it satisfies `pad N - N < 64 + 47`; with pad residue
0 the function returns `N` unchanged; and `pad` is deterministic. -/
theorem C6_pad_correct (N : Nat) (hN : 1 ≤ N) :
    N ≤ pad N ∧ pad N % 64 = 47 ∧ (∀ t, N ≤ t → t % 64 = 47 → pad N ≤ t) ∧
    pad N - N < 64 + 47 ∧ padP 0 N = N ∧ (∀ M, N = M → pad N = pad M) := by
  have e1 : pad N = N + (111 - N % 64) % 64 := by
    unfold pad padP PAD
    norm_num
  have e2 : padP 0 N = N := by
    unfold padP
    norm_num
  rw [e1, e2]
  refine ⟨by omega, by omega, fun t h1 h2 => by omega, by omega, rfl,
    fun M h => by rw [← e1, h]⟩

/-- Witness for C6 at `N = 100`: `pad 100 = 111`. -/
theorem C6_pad_correct_witness :
    1 ≤ 100 ∧
      (100 ≤ pad 100 ∧ pad 100 % 64 = 47 ∧ (∀ t, 100 ≤ t → t % 64 = 47 → pad 100 ≤ t) ∧
        pad 100 - 100 < 64 + 47 ∧ padP 0 100 = 100 ∧ (∀ M, 100 = M → pad 100 = pad M)) :=
  ⟨by decide, C6_pad_correct 100 (by decide)⟩

/-- C4: `BM_Transpose_Row` performs a full correct transpose: for every
`N ≥ 1` and stride `s ≥ N`, cell `(i, j)` afterwards holds the original
`(j, i)` value; concretely, for `N = 3`, `stride = 3`, input
`[1,2,3,4,5,6,7,8,9]` the output over the nine cells is `[1,4,7,2,5,8,3,6,9]`. -/
theorem C4_rowTranspose_correct {α : Type u} (N s : Nat) (m : Nat → α) (i j : Nat)
    (hN : 1 ≤ N) (hs : N ≤ s) (hi : i < N) (hj : j < N) :
    transposeRow s N m (enc s i j) = m (enc s j i) ∧
    (∀ k < 9, transposeRow 3 3 ex9 k = ex9T k) := by
  constructor
  · by_cases hij : i = j
    · subst hij
      exact applySwaps_diag hs (pairs_row_mirror s N) m hi
    · unfold transposeRow
      rw [applySwaps_parity hs (pairs_row_mirror s N) m hi hj,
        cnt_pairs_row_ne hs hi hj hij]
      simp
  · decide

/-- Witness for C4 at `N = 3`, `s = 3`, `(i, j) = (1, 2)` on the identity buffer. -/
theorem C4_rowTranspose_correct_witness :
    (1 ≤ 3 ∧ 3 ≤ 3 ∧ 1 < 3 ∧ 2 < 3) ∧
      (transposeRow 3 3 idBuf (enc 3 1 2) = idBuf (enc 3 2 1) ∧
        (∀ k < 9, transposeRow 3 3 ex9 k = ex9T k)) :=
  ⟨by decide, C4_rowTranspose_correct 3 3 idBuf 1 2 (by decide) (by decide) (by decide) (by decide)⟩

/-- C5: involution: for every `N ≥ 1`, every stride `s ≥ N`, every tile
parameter choice, and every buffer, running the same algorithm twice restores
every buffer cell exactly (the recursive variant runs with its own
stride `N`). -/
theorem C5_involution {α : Type u} (N s B B2 : Nat) (m : Nat → α) (k : Nat)
    (hN : 1 ≤ N) (hs : N ≤ s) :
    transposeRow s N (transposeRow s N m) k = m k ∧
    transposeBlock s N B (transposeBlock s N B m) k = m k ∧
    transposeBlock2 s N B B2 (transposeBlock2 s N B B2 m) k = m k ∧
    transpose_rec N N 0 0 0 0 (transpose_rec N N 0 0 0 0 m) k = m k :=
  ⟨applySwaps_involution hs (pairs_row_mirror s N) m k,
   applySwaps_involution hs (pairs_block_mirror s N B) m k,
   applySwaps_involution hs (pairs_block2_mirror s N B B2) m k,
   applySwaps_involution (Nat.le_refl N) (pairs_rec_mirror N N N 0 0 0 0 rfl rfl) m k⟩

/-- Witness for C5 at `N = 3`, `s = pad 3 = 47`, the source's tile sizes,
cell 49 = (1,2). -/
theorem C5_involution_witness :
    (1 ≤ 3 ∧ 3 ≤ 47) ∧
      (transposeRow 47 3 (transposeRow 47 3 idBuf) 49 = idBuf 49 ∧
        transposeBlock 47 3 64 (transposeBlock 47 3 64 idBuf) 49 = idBuf 49 ∧
        transposeBlock2 47 3 4 1040 (transposeBlock2 47 3 4 1040 idBuf) 49 = idBuf 49 ∧
        transpose_rec 3 3 0 0 0 0 (transpose_rec 3 3 0 0 0 0 idBuf) 49 = idBuf 49) :=
  ⟨by decide, C5_involution 3 47 64 1040 idBuf 49 (by decide) (by decide)⟩

/-- C8: diagonal fixed point: for every `N ≥ 1`, stride `s ≥ N`, buffer, and
`i < N`, each of the four algorithms leaves logical cell `(i, i)` unchanged. -/
theorem C8_diagonal_fixed {α : Type u} (N s B B2 : Nat) (m : Nat → α) (i : Nat)
    (hN : 1 ≤ N) (hs : N ≤ s) (hi : i < N) :
    transposeRow s N m (enc s i i) = m (enc s i i) ∧
    transposeBlock s N B m (enc s i i) = m (enc s i i) ∧
    transposeBlock2 s N B B2 m (enc s i i) = m (enc s i i) ∧
    transpose_rec N N 0 0 0 0 m (enc N i i) = m (enc N i i) :=
  ⟨applySwaps_diag hs (pairs_row_mirror s N) m hi,
   applySwaps_diag hs (pairs_block_mirror s N B) m hi,
   applySwaps_diag hs (pairs_block2_mirror s N B B2) m hi,
   applySwaps_diag (Nat.le_refl N) (pairs_rec_mirror N N N 0 0 0 0 rfl rfl) m hi⟩

/-- Witness for C8 at `N = 3`, `s = 47`, `i = 1`. -/
theorem C8_diagonal_fixed_witness :
    (1 ≤ 3 ∧ 3 ≤ 47 ∧ 1 < 3) ∧
      (transposeRow 47 3 idBuf (enc 47 1 1) = idBuf (enc 47 1 1) ∧
        transposeBlock 47 3 64 idBuf (enc 47 1 1) = idBuf (enc 47 1 1) ∧
        transposeBlock2 47 3 4 1040 idBuf (enc 47 1 1) = idBuf (enc 47 1 1) ∧
        transpose_rec 3 3 0 0 0 0 idBuf (enc 3 1 1) = idBuf (enc 3 1 1)) :=
  ⟨by decide, C8_diagonal_fixed 3 47 64 1040 idBuf 1 (by decide) (by decide) (by decide)⟩

/-- C9: padding never observed: with `stride = pad N`, the three padded-layout
algorithms only ever address indices `i*stride+j` with `i, j < N`, and every
padding cell `r*stride+c` with `N ≤ c < stride` keeps its original value. -/
theorem C9_padding_untouched {α : Type u} (N : Nat) (hN : 1 ≤ N) (m : Nat → α)
    (r c : Nat) (hcN : N ≤ c) (hcs : c < pad N) :
    (∀ p ∈ pairs_row (pad N) N, IsMirror (pad N) N p) ∧
    (∀ p ∈ pairs_block (pad N) N 64, IsMirror (pad N) N p) ∧
    (∀ p ∈ pairs_block2 (pad N) N 4 1040, IsMirror (pad N) N p) ∧
    transposeRow (pad N) N m (enc (pad N) r c) = m (enc (pad N) r c) ∧
    transposeBlock (pad N) N 64 m (enc (pad N) r c) = m (enc (pad N) r c) ∧
    transposeBlock2 (pad N) N 4 1040 m (enc (pad N) r c) = m (enc (pad N) r c) := by
  have hs : N ≤ pad N := by
    unfold pad padP
    exact Nat.le_add_right _ _
  have hk : ¬(enc (pad N) r c / pad N < N ∧ enc (pad N) r c % pad N < N) := by
    rintro ⟨-, h2⟩
    rw [enc_mod r hcs] at h2
    omega
  exact ⟨pairs_row_mirror _ _, pairs_block_mirror _ _ _, pairs_block2_mirror _ _ _ _,
    applySwaps_untouched (mirror_not_touching hs (pairs_row_mirror _ _) hk) m,
    applySwaps_untouched (mirror_not_touching hs (pairs_block_mirror _ _ _) hk) m,
    applySwaps_untouched (mirror_not_touching hs (pairs_block2_mirror _ _ _ _) hk) m⟩

/-- Witness for C9 at `N = 3` (`pad 3 = 47`), padding cell `(r, c) = (1, 4)`. -/
theorem C9_padding_untouched_witness :
    (1 ≤ 3 ∧ 3 ≤ 4 ∧ 4 < pad 3) ∧
      ((∀ p ∈ pairs_row (pad 3) 3, IsMirror (pad 3) 3 p) ∧
        (∀ p ∈ pairs_block (pad 3) 3 64, IsMirror (pad 3) 3 p) ∧
        (∀ p ∈ pairs_block2 (pad 3) 3 4 1040, IsMirror (pad 3) 3 p) ∧
        transposeRow (pad 3) 3 idBuf (enc (pad 3) 1 4) = idBuf (enc (pad 3) 1 4) ∧
        transposeBlock (pad 3) 3 64 idBuf (enc (pad 3) 1 4) = idBuf (enc (pad 3) 1 4) ∧
        transposeBlock2 (pad 3) 3 4 1040 idBuf (enc (pad 3) 1 4) = idBuf (enc (pad 3) 1 4)) :=
  ⟨by decide, C9_padding_untouched 3 (by decide) idBuf 1 4 (by decide) (by decide)⟩

/-- C10: in-bounds totality: with `N ≥ 1` and `s ≥ N`, every index in every
swap performed by the three padded-layout algorithms is below the buffer
length `s * N`, and every index of the recursive algorithm (stride `N`) is
below `N * N`. -/
theorem C10_in_bounds (N s B B2 : Nat) (hN : 1 ≤ N) (hs : N ≤ s) :
    (∀ p ∈ pairs_row s N, p.1 < s * N ∧ p.2 < s * N) ∧
    (∀ p ∈ pairs_block s N B, p.1 < s * N ∧ p.2 < s * N) ∧
    (∀ p ∈ pairs_block2 s N B B2, p.1 < s * N ∧ p.2 < s * N) ∧
    (∀ p ∈ pairs_rec N N N 0 0 0 0, p.1 < N * N ∧ p.2 < N * N) :=
  ⟨fun p hp => mirror_lt hs (pairs_row_mirror s N p hp),
   fun p hp => mirror_lt hs (pairs_block_mirror s N B p hp),
   fun p hp => mirror_lt hs (pairs_block2_mirror s N B B2 p hp),
   fun p hp => mirror_lt (Nat.le_refl N) (pairs_rec_mirror N N N 0 0 0 0 rfl rfl p hp)⟩

/-- Witness for C10 at `N = 3`, `s = 47`, the source's tile sizes. -/
theorem C10_in_bounds_witness :
    (1 ≤ 3 ∧ 3 ≤ 47) ∧
      ((∀ p ∈ pairs_row 47 3, p.1 < 47 * 3 ∧ p.2 < 47 * 3) ∧
        (∀ p ∈ pairs_block 47 3 64, p.1 < 47 * 3 ∧ p.2 < 47 * 3) ∧
        (∀ p ∈ pairs_block2 47 3 4 1040, p.1 < 47 * 3 ∧ p.2 < 47 * 3) ∧
        (∀ p ∈ pairs_rec 3 3 3 0 0 0 0, p.1 < 3 * 3 ∧ p.2 < 3 * 3)) :=
  ⟨by decide, C10_in_bounds 3 47 64 1040 (by decide) (by decide)⟩

/-- C1 (refuting evaluation): with the source's `B = 64`, BlockTranspose at
`N = 3`, `stride = 3` leaves cell `(1, 2)` holding its own original value
instead of the `(2, 1)` value: the diagonal-block inner loop starts at
`j = k+1` rather than `j = i+1`, so the pair `{(1,2),(2,1)}` is swapped twice
(a net no-op). -/
theorem C1_block_diag_bug :
    transposeBlock 3 3 64 idBuf (enc 3 1 2) = idBuf (enc 3 1 2) ∧
    transposeBlock 3 3 64 idBuf (enc 3 1 2) ≠ idBuf (enc 3 2 1) := by
  decide

/-- C2 (refuting evaluation): on the same input, with the padded stride
`pad 3 = 47`, RowTranspose and BlockTranspose produce different outputs at
logical cell `(1, 2)` for `N = 3`. -/
theorem C2_row_block_differ :
    transposeRow (pad 3) 3 idBuf (enc (pad 3) 1 2) = idBuf (enc (pad 3) 2 1) ∧
    transposeBlock (pad 3) 3 64 idBuf (enc (pad 3) 1 2) = idBuf (enc (pad 3) 1 2) ∧
    transposeRow (pad 3) 3 idBuf (enc (pad 3) 1 2) ≠
      transposeBlock (pad 3) 3 64 idBuf (enc (pad 3) 1 2) := by
  decide

/-- C3 (refuting evaluation): `transpose_rec(7, 7, m, 0, 0, 0, 0)` leaves cell
`(4, 3)` holding its own original value instead of the `(3, 4)` value: at the
odd split `h = 3, n - h = 4` the size-4 cross call overlaps the bottom-right
self call, double-swapping the pair `{(4,3),(3,4)}`. -/
theorem C3_rec_odd_bug :
    transpose_rec 7 7 0 0 0 0 idBuf (enc 7 4 3) = idBuf (enc 7 4 3) ∧
    transpose_rec 7 7 0 0 0 0 idBuf (enc 7 4 3) ≠ idBuf (enc 7 3 4) := by
  decide

/-- C7 (refuting evaluation): at `N = 16`, a power of two, the recursive
algorithm differs from RowTranspose with stride 16: the recursive case issues
only three sub-calls, which for a cross pair omits the (top-right,
bottom-left) quadrant pairing, so cell `(8, 4)` is never moved. -/
theorem C7_rec_pow2_differs :
    transposeRow 16 16 idBuf (enc 16 8 4) = idBuf (enc 16 4 8) ∧
    transpose_rec 16 16 0 0 0 0 idBuf (enc 16 8 4) = idBuf (enc 16 8 4) ∧
    transpose_rec 16 16 0 0 0 0 idBuf (enc 16 8 4) ≠
      transposeRow 16 16 idBuf (enc 16 8 4) := by
  decide

end BenchTranspose
